import Mathlib

/-!
# Verification of the appinion ranking/aggregation core

Shallow embedding of `src/appinion/aggregator.py`.

Modelling conventions:
* Python `float` values (ratings, prices) are embedded as exact rationals `ℚ`;
  Python `int` as `ℤ`; Python `str` as `List Char` (Python string functions
  `str.strip` / `str.lower` are embedded as executable functions on `List Char`).
* `None`-able prices are `Option ℚ`.
* Python tuple keys compared lexicographically are embedded as `Lex` products
  with their Mathlib lexicographic linear order; the `float("inf")` /
  `float("-inf")` sentinels become `⊤ : WithTop ℚ` / `⊥ : WithBot ℚ`.
* Python `max(xs, key=k)` / `min(xs, key=k)` keep the first extremal element;
  they are embedded as left folds that replace the current best only on a
  strict improvement.
* Python `sorted(xs, key=k)` is a stable sort by the key; it is embedded as
  `List.mergeSort` with the decidable `≤` on keys.
* The `dict` index built with `setdefault(...).append(...)` is embedded as an
  association list with unique keys, buckets in insertion order.
-/

/-- Embedding of the dataclass `ServiceOption` (aggregator.py, lines 8-25).
Field defaults mirror the Python defaults (`None`). -/
structure ServiceOption where
  service : List Char
  provider : List Char
  rating : ℚ
  review_count : ℤ
  price : Option ℚ := none
  currency : Option (List Char) := none
  pricing_unit : Option (List Char) := none
  link : Option (List Char) := none
  notes : Option (List Char) := none
deriving DecidableEq

/-- Embedding of Python `str.strip()`: drop leading and trailing whitespace. -/
def pyStrip (s : List Char) : List Char :=
  ((s.dropWhile Char.isWhitespace).reverse.dropWhile Char.isWhitespace).reverse

/-- Embedding of Python `str.lower()` (ASCII case folding). -/
def pyLower (s : List Char) : List Char :=
  s.map Char.toLower

/-- Embedding of `_normalize_service_name` (aggregator.py, lines 110-111):
`service.strip().lower()`. -/
def _normalize_service_name (service : List Char) : List Char :=
  pyLower (pyStrip service)

/-- One step of `dict.setdefault(k, []).append(o)` on the association-list
embedding of the index `dict`: append `o` to the bucket of key `k`, creating
the bucket if the key is absent.  Keys stay unique and buckets keep insertion
order, exactly as a Python `dict` of lists does. -/
def setdefaultAppend (index : List (List Char × List ServiceOption)) (k : List Char)
    (o : ServiceOption) : List (List Char × List ServiceOption) :=
  match index with
  | [] => [(k, [o])]
  | (k', bucket) :: rest =>
    if k' = k then (k', bucket ++ [o]) :: rest
    else (k', bucket) :: setdefaultAppend rest k o

/-- Embedding of `dict.get(k, [])` on the association-list index: the bucket
stored under `k`, or `[]` when the key is absent. -/
def indexGet (index : List (List Char × List ServiceOption)) (k : List Char) :
    List ServiceOption :=
  match index with
  | [] => []
  | (k', bucket) :: rest => if k' = k then bucket else indexGet rest k

/-- The index-building loop of `ServiceRepository.__init__`
(aggregator.py, lines 33-36). -/
def buildIndex (options : List ServiceOption) : List (List Char × List ServiceOption) :=
  options.foldl
    (fun index option => setdefaultAppend index (_normalize_service_name option.service) option)
    []

/-- Embedding of the `ServiceRepository` state: the stored snapshot
`self._options` and the derived index `self._index`. -/
structure ServiceRepository where
  _options : List ServiceOption
  _index : List (List Char × List ServiceOption)

/-- Embedding of `ServiceRepository.__init__` (aggregator.py, lines 31-36). -/
def ServiceRepository.init (options : List ServiceOption) : ServiceRepository :=
  { _options := options, _index := buildIndex options }

/-- Embedding of `ServiceRepository.services` (aggregator.py, lines 38-41):
`sorted({option.service for option in self._options})`; the set comprehension
becomes deduplication and `sorted` a sort by the lexicographic string order. -/
def ServiceRepository.services (repo : ServiceRepository) : List (List Char) :=
  ((repo._options.map fun option => option.service).dedup).mergeSort
    fun a b => decide (a ≤ b)

/-- The sort key of `ServiceRepository.for_service` (aggregator.py, lines 49-53):
`(-option.rating, -option.review_count, option.price if option.price is not None
else float("inf"))`, as a lexicographic triple with `⊤` for the missing price. -/
def forServiceKey (option : ServiceOption) : Lex (ℚ × Lex (ℤ × WithTop ℚ)) :=
  toLex (-option.rating, toLex (-option.review_count,
    match option.price with
    | some p => (p : WithTop ℚ)
    | none => ⊤))

/-- Embedding of `ServiceRepository.for_service` (aggregator.py, lines 43-54):
look up the bucket of the normalized name and stably sort it by `forServiceKey`. -/
def ServiceRepository.for_service (repo : ServiceRepository) (service : List Char) :
    List ServiceOption :=
  let normalized := _normalize_service_name service
  (indexGet repo._index normalized).mergeSort fun a b => decide (forServiceKey a ≤ forServiceKey b)

/-- Embedding of `_best_option` (aggregator.py, lines 102-107) specialised to a
key function: `max(iterable, key=key)` returns the FIRST element of maximal
key, i.e. a left fold replacing the current best only on strict improvement;
the empty list gives `None`. -/
def _best_option {α κ : Type} [LinearOrder κ] (options : List α) (key : α → κ) : Option α :=
  match options with
  | [] => none
  | x :: xs => some (xs.foldl (fun best y => if key best < key y then y else best) x)

/-- Embedding of Python `min(iterable, key=key)` on a list: the FIRST element
of minimal key, i.e. a left fold replacing the current best only on strict
improvement; the empty list gives `None`. -/
def pyMin {α κ : Type} [LinearOrder κ] (options : List α) (key : α → κ) : Option α :=
  match options with
  | [] => none
  | x :: xs => some (xs.foldl (fun best y => if key y < key best then y else best) x)

/-- The key of `best_rated` (aggregator.py, lines 62-66):
`(option.rating, option.review_count, -option.price if option.price is not None
else float("-inf"))`, as a lexicographic triple with `⊥` for the missing price. -/
def bestRatedKey (option : ServiceOption) : Lex (ℚ × Lex (ℤ × WithBot ℚ)) :=
  toLex (option.rating, toLex (option.review_count,
    match option.price with
    | some p => ((-p : ℚ) : WithBot ℚ)
    | none => ⊥))

/-- Embedding of `best_rated` (aggregator.py, lines 57-67). -/
def best_rated (options : List ServiceOption) : Option ServiceOption :=
  _best_option options bestRatedKey

/-- The key of `cheapest` (aggregator.py, line 79):
`(option.price, -option.rating, -option.review_count)`.  `cheapest` only ever
compares options whose price is known, so the `getD 0` default is never the
value actually compared. -/
def cheapestKey (option : ServiceOption) : Lex (ℚ × Lex (ℚ × ℤ)) :=
  toLex (option.price.getD 0, toLex (-option.rating, -option.review_count))

/-- Embedding of `cheapest` (aggregator.py, lines 70-80). -/
def cheapest (options : List ServiceOption) : Option ServiceOption :=
  let priced_options := options.filter fun option => option.price.isSome
  if priced_options.isEmpty then none
  else pyMin priced_options cheapestKey

/-- The filter of `best_value` (aggregator.py, line 86):
`option.price is not None and option.price > 0`. -/
def hasPositivePrice (option : ServiceOption) : Bool :=
  match option.price with
  | some p => decide (0 < p)
  | none => false

/-- Embedding of the inner `value` function of `best_value`
(aggregator.py, lines 90-94): `rating * (1 + review_count / 100) / price`.
`best_value` only evaluates it on options with a known positive price, so the
`getD 0` default is never the divisor actually used. -/
def value (option : ServiceOption) : ℚ :=
  let engagement_factor : ℚ := 1 + (option.review_count : ℚ) / 100
  option.rating * engagement_factor / option.price.getD 0

/-- The key of `best_value` (aggregator.py, line 98):
`(value(option), option.rating, option.review_count)`. -/
def bestValueKey (option : ServiceOption) : Lex (ℚ × Lex (ℚ × ℤ)) :=
  toLex (value option, toLex (option.rating, option.review_count))

/-- Embedding of `best_value` (aggregator.py, lines 83-99). -/
def best_value (options : List ServiceOption) : Option ServiceOption :=
  let priced_options := options.filter hasPositivePrice
  if priced_options.isEmpty then best_rated options
  else _best_option priced_options bestValueKey

/-! ## Generic lemmas about the first-max / first-min folds -/

theorem foldl_max_mem {α κ : Type} [LinearOrder κ] (key : α → κ) :
    ∀ (xs : List α) (x : α),
      xs.foldl (fun best y => if key best < key y then y else best) x ∈ x :: xs := by
  intro xs
  induction xs with
  | nil => intro x; simp
  | cons y ys ih =>
    intro x
    simp only [List.foldl_cons]
    have h := ih (if key x < key y then y else x)
    rcases List.mem_cons.mp h with h1 | h1
    · rw [h1]
      by_cases hxy : key x < key y <;> simp [hxy]
    · simp [List.mem_cons, h1]

theorem foldl_max_le {α κ : Type} [LinearOrder κ] (key : α → κ) :
    ∀ (xs : List α) (x : α), ∀ z ∈ x :: xs,
      key z ≤ key (xs.foldl (fun best y => if key best < key y then y else best) x) := by
  intro xs
  induction xs with
  | nil => intro x z hz; simp at hz; simp [hz]
  | cons y ys ih =>
    intro x z hz
    simp only [List.foldl_cons]
    have hx : key x ≤ key (if key x < key y then y else x) := by
      by_cases hxy : key x < key y <;> simp [hxy]
      exact le_of_lt hxy
    have hy : key y ≤ key (if key x < key y then y else x) := by
      by_cases hxy : key x < key y <;> simp [hxy]
      exact le_of_not_lt hxy
    rcases List.mem_cons.mp hz with h1 | h1
    · subst h1
      exact le_trans hx (ih _ _ (List.mem_cons_self _ _))
    · rcases List.mem_cons.mp h1 with h2 | h2
      · subst h2
        exact le_trans hy (ih _ _ (List.mem_cons_self _ _))
      · exact ih _ _ (List.mem_cons.mpr (Or.inr h2))

theorem foldl_max_first {α κ : Type} [LinearOrder κ] (key : α → κ) :
    ∀ (xs : List α) (x : α), ∃ l₁ l₂,
      x :: xs = l₁ ++ (xs.foldl (fun best y => if key best < key y then y else best) x) :: l₂ ∧
      ∀ z ∈ l₁, key z < key (xs.foldl (fun best y => if key best < key y then y else best) x) := by
  intro xs
  induction xs with
  | nil => intro x; exact ⟨[], [], rfl, by simp⟩
  | cons y ys ih =>
    intro x
    simp only [List.foldl_cons]
    by_cases hxy : key x < key y
    · rw [if_pos hxy]
      obtain ⟨l₁, l₂, heq, hlt⟩ := ih y
      refine ⟨x :: l₁, l₂, by rw [List.cons_append, ← heq], ?_⟩
      intro z hz
      rcases List.mem_cons.mp hz with h1 | h1
      · subst h1
        exact lt_of_lt_of_le hxy (foldl_max_le key ys y y (List.mem_cons_self _ _))
      · exact hlt z h1
    · rw [if_neg hxy]
      obtain ⟨l₁, l₂, heq, hlt⟩ := ih x
      cases l₁ with
      | nil =>
        simp only [List.nil_append] at heq
        obtain ⟨h1, h2⟩ := List.cons.inj heq
        exact ⟨[], y :: ys, by rw [List.nil_append, ← h1], by simp⟩
      | cons a l₁ =>
        obtain ⟨h1, h2⟩ := List.cons.inj heq
        subst h1
        rw [List.append_eq] at h2
        refine ⟨x :: y :: l₁, l₂, by rw [List.cons_append, List.cons_append, ← h2], ?_⟩
        intro z hz
        have hxr := hlt x (List.mem_cons_self _ _)
        rcases List.mem_cons.mp hz with h1 | h1
        · subst h1; exact hxr
        · rcases List.mem_cons.mp h1 with h3 | h3
          · subst h3; exact lt_of_le_of_lt (le_of_not_lt hxy) hxr
          · exact hlt z (List.mem_cons.mpr (Or.inr h3))

theorem foldl_min_le {α κ : Type} [LinearOrder κ] (key : α → κ) :
    ∀ (xs : List α) (x : α), ∀ z ∈ x :: xs,
      key (xs.foldl (fun best y => if key y < key best then y else best) x) ≤ key z := by
  intro xs
  induction xs with
  | nil => intro x z hz; simp at hz; simp [hz]
  | cons y ys ih =>
    intro x z hz
    simp only [List.foldl_cons]
    have hx : key (if key y < key x then y else x) ≤ key x := by
      by_cases hxy : key y < key x <;> simp [hxy]
      exact le_of_lt hxy
    have hy : key (if key y < key x then y else x) ≤ key y := by
      by_cases hxy : key y < key x <;> simp [hxy]
      exact le_of_not_lt hxy
    rcases List.mem_cons.mp hz with h1 | h1
    · subst h1
      exact le_trans (ih _ _ (List.mem_cons_self _ _)) hx
    · rcases List.mem_cons.mp h1 with h2 | h2
      · subst h2
        exact le_trans (ih _ _ (List.mem_cons_self _ _)) hy
      · exact ih _ _ (List.mem_cons.mpr (Or.inr h2))

theorem foldl_min_mem {α κ : Type} [LinearOrder κ] (key : α → κ) :
    ∀ (xs : List α) (x : α),
      xs.foldl (fun best y => if key y < key best then y else best) x ∈ x :: xs := by
  intro xs
  induction xs with
  | nil => intro x; simp
  | cons y ys ih =>
    intro x
    simp only [List.foldl_cons]
    have h := ih (if key y < key x then y else x)
    rcases List.mem_cons.mp h with h1 | h1
    · rw [h1]
      by_cases hxy : key y < key x <;> simp [hxy]
    · simp [List.mem_cons, h1]

/-- `_best_option` returns `none` exactly on the empty list. -/
theorem _best_option_eq_none_iff {α κ : Type} [LinearOrder κ] (options : List α)
    (key : α → κ) : _best_option options key = none ↔ options = [] := by
  cases options <;> simp [_best_option]

/-- `_best_option` returns an element of its input. -/
theorem _best_option_mem {α κ : Type} [LinearOrder κ] {options : List α} {key : α → κ}
    {r : α} (h : _best_option options key = some r) : r ∈ options := by
  cases options with
  | nil => simp [_best_option] at h
  | cons x xs =>
    simp only [_best_option, Option.some.injEq] at h
    rw [← h]
    exact foldl_max_mem key xs x

/-- Every element of the input has key at most that of `_best_option`'s result. -/
theorem _best_option_le {α κ : Type} [LinearOrder κ] {options : List α} {key : α → κ}
    {r : α} (h : _best_option options key = some r) : ∀ z ∈ options, key z ≤ key r := by
  cases options with
  | nil => simp [_best_option] at h
  | cons x xs =>
    simp only [_best_option, Option.some.injEq] at h
    rw [← h]
    exact foldl_max_le key xs x

/-- `_best_option` returns the FIRST key-maximal element: everything strictly
before the result in input order has strictly smaller key. -/
theorem _best_option_first {α κ : Type} [LinearOrder κ] {options : List α} {key : α → κ}
    {r : α} (h : _best_option options key = some r) :
    ∃ l₁ l₂, options = l₁ ++ r :: l₂ ∧ ∀ z ∈ l₁, key z < key r := by
  cases options with
  | nil => simp [_best_option] at h
  | cons x xs =>
    simp only [_best_option, Option.some.injEq] at h
    rw [← h]
    exact foldl_max_first key xs x

/-- `pyMin` returns `none` exactly on the empty list. -/
theorem pyMin_eq_none_iff {α κ : Type} [LinearOrder κ] (options : List α)
    (key : α → κ) : pyMin options key = none ↔ options = [] := by
  cases options <;> simp [pyMin]

/-- `pyMin` returns an element of its input. -/
theorem pyMin_mem {α κ : Type} [LinearOrder κ] {options : List α} {key : α → κ}
    {r : α} (h : pyMin options key = some r) : r ∈ options := by
  cases options with
  | nil => simp [pyMin] at h
  | cons x xs =>
    simp only [pyMin, Option.some.injEq] at h
    rw [← h]
    exact foldl_min_mem key xs x

/-- `pyMin`'s result has key at most that of every element of the input. -/
theorem pyMin_le {α κ : Type} [LinearOrder κ] {options : List α} {key : α → κ}
    {r : α} (h : pyMin options key = some r) : ∀ z ∈ options, key r ≤ key z := by
  cases options with
  | nil => simp [pyMin] at h
  | cons x xs =>
    simp only [pyMin, Option.some.injEq] at h
    rw [← h]
    exact foldl_min_le key xs x

/-! ## The index built by `ServiceRepository.__init__` -/

/-- The bucket that `__init__` conceptually files under normalized key `k`:
the input options whose normalized service name equals `k`, in input order. -/
def serviceBucket (options : List ServiceOption) (k : List Char) : List ServiceOption :=
  options.filter fun option => decide (_normalize_service_name option.service = k)

theorem indexGet_setdefaultAppend (index : List (List Char × List ServiceOption))
    (k₀ k : List Char) (o : ServiceOption) :
    indexGet (setdefaultAppend index k₀ o) k =
      indexGet index k ++ if k₀ = k then [o] else [] := by
  induction index with
  | nil =>
    by_cases h : k₀ = k <;> simp [setdefaultAppend, indexGet, h]
  | cons p rest ih =>
    obtain ⟨k', bucket⟩ := p
    by_cases h1 : k' = k₀
    · subst h1
      by_cases h2 : k' = k
      · subst h2
        simp [setdefaultAppend, indexGet]
      · simp [setdefaultAppend, indexGet, h2]
    · by_cases h2 : k' = k
      · subst h2
        have hk : ¬ k₀ = k' := fun h => h1 h.symm
        simp [setdefaultAppend, indexGet, h1, hk]
      · simp [setdefaultAppend, indexGet, h1, h2, ih]

theorem indexGet_foldl (options : List ServiceOption) :
    ∀ (index : List (List Char × List ServiceOption)) (k : List Char),
      indexGet (options.foldl (fun index option =>
          setdefaultAppend index (_normalize_service_name option.service) option) index) k =
        indexGet index k ++ serviceBucket options k := by
  induction options with
  | nil => intro index k; simp [serviceBucket]
  | cons o rest ih =>
    intro index k
    simp only [List.foldl_cons]
    rw [ih]
    rw [indexGet_setdefaultAppend]
    by_cases h : _normalize_service_name o.service = k
    · simp [serviceBucket, h, List.filter_cons]
    · simp [serviceBucket, h, List.filter_cons]

/-- The index built at construction maps each normalized key to exactly the
options whose normalized service name equals it, in input order. -/
theorem indexGet_buildIndex (options : List ServiceOption) (k : List Char) :
    indexGet (buildIndex options) k = serviceBucket options k := by
  have h := indexGet_foldl options [] k
  simpa [buildIndex, indexGet] using h

/-! ## Transitivity and totality of the Boolean key orders used by `sorted` -/

theorem keyLe_trans {α κ : Type} [LinearOrder κ] (key : α → κ) :
    ∀ a b c : α, decide (key a ≤ key b) → decide (key b ≤ key c) →
      decide (key a ≤ key c) := by
  intro a b c hab hbc
  simp only [decide_eq_true_eq] at *
  exact le_trans hab hbc

theorem keyLe_total {α κ : Type} [LinearOrder κ] (key : α → κ) :
    ∀ a b : α, decide (key a ≤ key b) || decide (key b ≤ key a) := by
  intro a b
  simp only [Bool.or_eq_true, decide_eq_true_eq]
  exact le_total _ _

/-! ## Witness data: concrete options used to instantiate the claim theorems -/

/-- Witness option: unpriced. -/
def wUnpriced : ServiceOption :=
  { service := "cleaning".data, provider := "U".data, rating := 5, review_count := 1 }

/-- Witness option: priced 10, rating 4. -/
def wCheap : ServiceOption :=
  { service := "cleaning".data, provider := "C".data, rating := 4, review_count := 3,
    price := some 10 }

/-- Witness option: priced 30, rating 5. -/
def wDear : ServiceOption :=
  { service := "cleaning".data, provider := "D".data, rating := 5, review_count := 7,
    price := some 30 }

/-! ## Claim theorems -/

/-- C3: `best_rated` returns "no result" exactly when the input is empty; on any
non-empty input it returns an element of the input, namely the first element in
input order that is maximal under the composite key (rating, then review_count,
then lower price preferred, a missing price counting as negative infinity). -/
theorem best_rated_first_max (options : List ServiceOption) :
    (best_rated options = none ↔ options = []) ∧
    ∀ r, best_rated options = some r →
      r ∈ options ∧
      (∀ y ∈ options, bestRatedKey y ≤ bestRatedKey r) ∧
      ∃ l₁ l₂, options = l₁ ++ r :: l₂ ∧ ∀ y ∈ l₁, bestRatedKey y < bestRatedKey r := by
  refine ⟨_best_option_eq_none_iff options bestRatedKey, ?_⟩
  intro r h
  rw [best_rated] at h
  exact ⟨_best_option_mem h, _best_option_le h, _best_option_first h⟩

/-- Witness for C3: on `[wCheap, wDear]` the higher-rated `wDear` wins and is
preceded only by a strictly smaller-keyed option. -/
theorem best_rated_first_max_witness :
    wDear ∈ [wCheap, wDear] ∧
    (∀ y ∈ [wCheap, wDear], bestRatedKey y ≤ bestRatedKey wDear) ∧
    ∃ l₁ l₂, [wCheap, wDear] = l₁ ++ wDear :: l₂ ∧
      ∀ y ∈ l₁, bestRatedKey y < bestRatedKey wDear :=
  (best_rated_first_max [wCheap, wDear]).2 wDear (by decide)

/-- C4: if at least one option has a known price, `cheapest` returns a priced
element of the input that is minimal among the priced options under the
composite key (price ascending, then rating descending, then review_count
descending); if no option has a known price it returns "no result", never
falling back to unpriced options. -/
theorem cheapest_min_priced (options : List ServiceOption) :
    ((∀ o ∈ options, o.price = none) → cheapest options = none) ∧
    ((∃ o ∈ options, o.price.isSome) →
      ∃ r, cheapest options = some r ∧ r ∈ options ∧ r.price.isSome ∧
        ∀ y ∈ options, y.price.isSome → cheapestKey r ≤ cheapestKey y) := by
  constructor
  · intro h
    have hf : options.filter (fun option => option.price.isSome) = [] := by
      rw [List.filter_eq_nil_iff]
      intro o ho
      simp [h o ho]
    simp [cheapest, hf]
  · rintro ⟨o, ho, hp⟩
    have hmem : o ∈ options.filter (fun option => option.price.isSome) :=
      List.mem_filter.mpr ⟨ho, hp⟩
    have hne : options.filter (fun option => option.price.isSome) ≠ [] :=
      List.ne_nil_of_mem hmem
    cases hmin : pyMin (options.filter fun option => option.price.isSome) cheapestKey with
    | none => exact absurd ((pyMin_eq_none_iff _ _).mp hmin) hne
    | some r =>
      refine ⟨r, ?_, ?_, ?_, ?_⟩
      · simp [cheapest, List.isEmpty_iff, hne, hmin]
      · exact (List.mem_filter.mp (pyMin_mem hmin)).1
      · exact (List.mem_filter.mp (pyMin_mem hmin)).2
      · intro y hy hyp
        exact pyMin_le hmin y (List.mem_filter.mpr ⟨hy, hyp⟩)

/-- Witness for C4: on `[wUnpriced, wDear, wCheap]` the cheapest priced option
`wCheap` is returned, and on the all-unpriced list the result is `none`. -/
theorem cheapest_min_priced_witness :
    cheapest [wUnpriced] = none ∧
    ∃ r, cheapest [wUnpriced, wDear, wCheap] = some r ∧
      r ∈ [wUnpriced, wDear, wCheap] ∧ r.price.isSome ∧
      ∀ y ∈ [wUnpriced, wDear, wCheap], y.price.isSome → cheapestKey r ≤ cheapestKey y :=
  ⟨(cheapest_min_priced [wUnpriced]).1 (by decide),
   (cheapest_min_priced [wUnpriced, wDear, wCheap]).2 ⟨wDear, by decide, by decide⟩⟩

/-- C2: when no option has a known price strictly greater than zero,
`best_value` coincides with `best_rated` on the same full, unfiltered input. -/
theorem best_value_fallback_to_best_rated (options : List ServiceOption)
    (h : ∀ o ∈ options, ∀ p : ℚ, o.price = some p → ¬ 0 < p) :
    best_value options = best_rated options := by
  have hf : options.filter hasPositivePrice = [] := by
    rw [List.filter_eq_nil_iff]
    intro o ho
    unfold hasPositivePrice
    cases hp : o.price with
    | none => simp
    | some p => simpa using h o ho p hp
  simp [best_value, hf]

/-- Witness for C2: a list with one unpriced and one zero-priced option falls
back to `best_rated`. -/
theorem best_value_fallback_to_best_rated_witness :
    best_value [wUnpriced, { wCheap with price := some 0 }] =
      best_rated [wUnpriced, { wCheap with price := some 0 }] :=
  best_value_fallback_to_best_rated [wUnpriced, { wCheap with price := some 0 }] (by decide)

/-- C9: every option that passes `best_value`'s price filter has a known price
`p` with `0 < p` (hence `p ≠ 0`), and on such options the score is exactly
`rating * (1 + review_count / 100) / p` with that nonzero `p` as divisor, so
the division is never evaluated with a zero divisor. -/
theorem best_value_division_safe (options : List ServiceOption) :
    ∀ o ∈ options.filter hasPositivePrice,
      ∃ p : ℚ, o.price = some p ∧ 0 < p ∧ p ≠ 0 ∧
        value o = o.rating * (1 + (o.review_count : ℚ) / 100) / p := by
  intro o ho
  have hp := (List.mem_filter.mp ho).2
  unfold hasPositivePrice at hp
  cases hcase : o.price with
  | none => rw [hcase] at hp; simp at hp
  | some p =>
    rw [hcase] at hp
    simp only [decide_eq_true_eq] at hp
    exact ⟨p, rfl, hp, ne_of_gt hp, by simp [value, hcase]⟩

/-- Witness for C9: `wCheap` passes the filter with divisor `10 ≠ 0`. -/
theorem best_value_division_safe_witness :
    ∃ p : ℚ, wCheap.price = some p ∧ 0 < p ∧ p ≠ 0 ∧
      value wCheap = wCheap.rating * (1 + (wCheap.review_count : ℚ) / 100) / p :=
  best_value_division_safe [wCheap] wCheap (by decide)

/-- C10: `best_value` returns "no result" exactly when the input list is empty;
on any non-empty input (even all-unpriced or zero-priced) it returns an element
of the input. -/
theorem best_value_none_iff_empty (options : List ServiceOption) :
    (best_value options = none ↔ options = []) ∧
    ∀ r, best_value options = some r → r ∈ options := by
  by_cases hf : (options.filter hasPositivePrice).isEmpty
  · have hbv : best_value options = best_rated options := by
      simp [best_value, hf]
    constructor
    · rw [hbv, best_rated, _best_option_eq_none_iff]
    · intro r h
      rw [hbv, best_rated] at h
      exact _best_option_mem h
  · have hbv : best_value options =
        _best_option (options.filter hasPositivePrice) bestValueKey := by
      simp [best_value, hf]
    have hne : options.filter hasPositivePrice ≠ [] := by
      simpa [List.isEmpty_iff] using hf
    constructor
    · rw [hbv]
      constructor
      · intro h
        exact absurd ((_best_option_eq_none_iff _ _).mp h) hne
      · intro h
        subst h
        simp at hne
    · intro r h
      rw [hbv] at h
      exact (List.mem_filter.mp (_best_option_mem h)).1

/-- Witness for C10: on the non-empty all-unpriced list `[wUnpriced]` the
returned option is an element of the input. -/
theorem best_value_none_iff_empty_witness :
    wUnpriced ∈ [wUnpriced] :=
  (best_value_none_iff_empty [wUnpriced]).2 wUnpriced (by decide)

/-- Option A of the spec's concrete scenario:
rating 4.5, review_count 10, price 20. -/
def optionA : ServiceOption :=
  { service := "s".data, provider := "A".data, rating := 9/2, review_count := 10,
    price := some 20 }

/-- Option B of the spec's concrete scenario:
rating 4.5, review_count 50, price 15. -/
def optionB : ServiceOption :=
  { service := "s".data, provider := "B".data, rating := 9/2, review_count := 50,
    price := some 15 }

/-- C1: when at least one option has a known price strictly greater than zero,
`best_value` returns a qualifying element of the input maximal under the key
(value score `rating * (1 + review_count/100) / price`, then rating, then
review_count); on the concrete input `[optionA, optionB]` the scores are
`value optionA = 0.2475` and `value optionB = 0.45` and option B (provider
`"B"`) is returned. -/
theorem best_value_max_score :
    (∀ options : List ServiceOption, (∃ o ∈ options, hasPositivePrice o) →
      ∃ r, best_value options = some r ∧ r ∈ options ∧ hasPositivePrice r ∧
        ∀ y ∈ options, hasPositivePrice y → bestValueKey y ≤ bestValueKey r) ∧
    value optionA = 2475/10000 ∧ value optionB = 45/100 ∧
    best_value [optionA, optionB] = some optionB ∧ optionB.provider = "B".data := by
  refine ⟨?_, ?_, ?_, ?_, rfl⟩
  · rintro options ⟨o, ho, hp⟩
    have hmem : o ∈ options.filter hasPositivePrice := List.mem_filter.mpr ⟨ho, hp⟩
    have hne : options.filter hasPositivePrice ≠ [] := List.ne_nil_of_mem hmem
    cases hbest : _best_option (options.filter hasPositivePrice) bestValueKey with
    | none => exact absurd ((_best_option_eq_none_iff _ _).mp hbest) hne
    | some r =>
      refine ⟨r, ?_, ?_, ?_, ?_⟩
      · simp [best_value, List.isEmpty_iff, hne, hbest]
      · exact (List.mem_filter.mp (_best_option_mem hbest)).1
      · exact (List.mem_filter.mp (_best_option_mem hbest)).2
      · intro y hy hyp
        exact _best_option_le hbest y (List.mem_filter.mpr ⟨hy, hyp⟩)
  · norm_num [value, optionA]
  · norm_num [value, optionB]
  · have hA : hasPositivePrice optionA = true := by norm_num [hasPositivePrice, optionA]
    have hB : hasPositivePrice optionB = true := by norm_num [hasPositivePrice, optionB]
    have hfilter : [optionA, optionB].filter hasPositivePrice = [optionA, optionB] := by
      simp [List.filter, hA, hB]
    have hlt : bestValueKey optionA < bestValueKey optionB := by
      rw [bestValueKey, bestValueKey, Prod.Lex.lt_iff]
      left
      norm_num [value, optionA, optionB]
    have hbv : best_value [optionA, optionB] =
        _best_option [optionA, optionB] bestValueKey := by
      simp [best_value, hfilter]
    rw [hbv]
    simp only [_best_option, List.foldl_cons, List.foldl_nil]
    rw [if_pos hlt]

/-- Witness for C1: the universal part applied to `[wCheap]`. -/
theorem best_value_max_score_witness :
    ∃ r, best_value [wCheap] = some r ∧ r ∈ [wCheap] ∧ hasPositivePrice r ∧
      ∀ y ∈ [wCheap], hasPositivePrice y → bestValueKey y ≤ bestValueKey r :=
  best_value_max_score.1 [wCheap] ⟨wCheap, by decide, by decide⟩

/-- The raw query string `"  Fontanero "` of the spec's concrete scenario. -/
def rawFontanero : List Char :=
  "  Fontanero ".data

/-- The normalized query string `"fontanero"` of the spec's concrete scenario. -/
def rawfontanero : List Char :=
  "fontanero".data

/-- A query string matching no witness option. -/
def rawMudanzas : List Char :=
  "mudanzas".data

/-- Witness option whose raw service name normalizes to `"fontanero"`. -/
def wFont : ServiceOption :=
  { service := rawFontanero, provider := "F".data, rating := 5, review_count := 2 }

/-- C5: `for_service` returns the empty sequence when no option's normalized
service name matches the normalized query; otherwise it returns exactly the
matching bucket (as a permutation of the filter of the input, in input order),
sorted by rating descending, review_count descending, then price ascending
with a missing price as positive infinity, and the sort is stable: two options
equal on all three keys keep their relative input order. -/
theorem for_service_sorted_stable (options : List ServiceOption) (name : List Char) :
    ((∀ o ∈ options, _normalize_service_name o.service ≠ _normalize_service_name name) →
      (ServiceRepository.init options).for_service name = []) ∧
    ((ServiceRepository.init options).for_service name).Perm
      (serviceBucket options (_normalize_service_name name)) ∧
    ((ServiceRepository.init options).for_service name).Pairwise
      (fun a b => forServiceKey a ≤ forServiceKey b) ∧
    ∀ a b : ServiceOption, forServiceKey a = forServiceKey b →
      List.Sublist [a, b] (serviceBucket options (_normalize_service_name name)) →
      List.Sublist [a, b] ((ServiceRepository.init options).for_service name) := by
  have hfs : (ServiceRepository.init options).for_service name =
      (serviceBucket options (_normalize_service_name name)).mergeSort
        (fun a b => decide (forServiceKey a ≤ forServiceKey b)) := by
    simp only [ServiceRepository.for_service, ServiceRepository.init]
    rw [indexGet_buildIndex]
  refine ⟨?_, ?_, ?_, ?_⟩
  · intro h
    have hb : serviceBucket options (_normalize_service_name name) = [] := by
      rw [serviceBucket, List.filter_eq_nil_iff]
      intro o ho
      simpa using h o ho
    rw [hfs, hb, List.mergeSort_nil]
  · rw [hfs]
    exact List.mergeSort_perm _ _
  · rw [hfs]
    exact (List.sorted_mergeSort (keyLe_trans forServiceKey) (keyLe_total forServiceKey)
      (serviceBucket options (_normalize_service_name name))).imp
      (fun h => by simpa using h)
  · intro a b hab hsub
    rw [hfs]
    exact List.pair_sublist_mergeSort (keyLe_trans forServiceKey) (keyLe_total forServiceKey)
      (by simp [hab]) hsub

/-- Witness for C5: a query matching nothing yields the empty sequence. -/
theorem for_service_sorted_stable_witness :
    (ServiceRepository.init [wFont]).for_service rawMudanzas = [] :=
  (for_service_sorted_stable [wFont] rawMudanzas).1 (by decide)

/-- C6: two query names that normalize equal (trim whitespace, case-fold) give
identical `for_service` results, and every option whose service name
normalizes equal to a query name is indexed into that query's bucket. -/
theorem for_service_respects_normalization (options : List ServiceOption)
    (n₁ n₂ : List Char) (h : _normalize_service_name n₁ = _normalize_service_name n₂) :
    (ServiceRepository.init options).for_service n₁ =
      (ServiceRepository.init options).for_service n₂ ∧
    ∀ o ∈ options, _normalize_service_name o.service = _normalize_service_name n₁ →
      o ∈ indexGet (ServiceRepository.init options)._index (_normalize_service_name n₂) := by
  constructor
  · simp only [ServiceRepository.for_service, h]
  · intro o ho hno
    have hidx : (ServiceRepository.init options)._index = buildIndex options := rfl
    rw [hidx, indexGet_buildIndex, serviceBucket]
    refine List.mem_filter.mpr ⟨ho, ?_⟩
    simp [hno, h]

/-- Witness for C6: `"  Fontanero "` and `"fontanero"` give identical results. -/
theorem for_service_respects_normalization_witness :
    (ServiceRepository.init [wFont]).for_service rawFontanero =
      (ServiceRepository.init [wFont]).for_service rawfontanero :=
  (for_service_respects_normalization [wFont] rawFontanero rawfontanero (by decide)).1

/-- C7: `services()` has no duplicates, is sorted lexicographically ascending,
contains exactly the raw (non-normalized) service strings of the indexed
options, and is empty for the empty repository. -/
theorem services_sorted_nodup (options : List ServiceOption) :
    ((ServiceRepository.init options).services).Nodup ∧
    List.Sorted (fun a b => a ≤ b) ((ServiceRepository.init options).services) ∧
    (∀ s, s ∈ (ServiceRepository.init options).services ↔ ∃ o ∈ options, o.service = s) ∧
    (options = [] → (ServiceRepository.init options).services = []) := by
  have hs : (ServiceRepository.init options).services =
      ((options.map fun option => option.service).dedup).mergeSort
        (fun a b => decide (a ≤ b)) := rfl
  have htrans : ∀ a b c : List Char, decide (a ≤ b) → decide (b ≤ c) → decide (a ≤ c) := by
    intro a b c hab hbc
    simp only [decide_eq_true_eq] at *
    exact le_trans hab hbc
  have htotal : ∀ a b : List Char, decide (a ≤ b) || decide (b ≤ a) := by
    intro a b
    simp only [Bool.or_eq_true, decide_eq_true_eq]
    exact le_total _ _
  refine ⟨?_, ?_, ?_, ?_⟩
  · rw [hs]
    exact (List.mergeSort_perm _ _).nodup_iff.mpr (List.nodup_dedup _)
  · rw [hs]
    exact (List.sorted_mergeSort htrans htotal _).imp (fun h => by simpa using h)
  · intro s
    rw [hs]
    simp
  · intro h
    subst h
    simp [hs]

/-- Witness for C7: the empty repository reports no services. -/
theorem services_sorted_nodup_witness :
    (ServiceRepository.init ([] : List ServiceOption)).services = [] :=
  (services_sorted_nodup []).2.2.2 rfl
